import Mathlib

/-!
Verification of the cube model and IDA* search of the rubiks-solver repository.
The definitions below are a shallow embedding of `src/cube/mod.rs` and
`src/search.rs`.  Rust panics are modelled by `Option` (`none` = panic);
machine integers are `Nat`; the `f32`-valued heuristics are modelled with `ℚ`
(their values are small dyadic-free fractions `k/12` with `k ≤ 24`, for which
`f32` arithmetic and `ℚ` arithmetic produce the same ceilings).
-/

set_option maxRecDepth 4000

namespace RubiksSolver

/-- `Color` (src/cube/mod.rs): the six sticker colors. -/
inductive Color
  | White
  | Red
  | Blue
  | Yellow
  | Orange
  | Green
deriving DecidableEq, Repr, Fintype

/-- `TurnDir` (src/cube/mod.rs): possible turn directions. -/
inductive TurnDir
  | Clockwise
  | CounterClockwise
deriving DecidableEq, Repr, Fintype

/-- `TurnDir::get_reversed`. -/
def TurnDir.get_reversed : TurnDir → TurnDir
  | .Clockwise => .CounterClockwise
  | .CounterClockwise => .Clockwise

/-- A `Face` (src/cube/mod.rs) is an n×n matrix of colors (ndarray `Array2<Color>`),
indexed row-first.  The `size` field is the type index `n`.
(`Face::new` panics for size 0; every constructed face has `n ≥ 1`.) -/
abbrev Face (n : Nat) := Fin n → Fin n → Color

/-- `Face::rotate`: transpose, then invert one axis.  For `Clockwise` the source
inverts ndarray axis 1 (`g[i][j] = f[n-1-j][i]`), for `CounterClockwise` axis 0
(`g[i][j] = f[j][n-1-i]`).  `Fin.rev k = n - 1 - k`. -/
def Face.rotate (f : Face n) (td : TurnDir) : Face n :=
  match td with
  | .Clockwise => fun i j => f j.rev i
  | .CounterClockwise => fun i j => f j i.rev

/-- `Face::get_slice`: the ith row (`isCol = false`) or column (`isCol = true`). -/
def getSlice (f : Face n) (i : Fin n) (isCol : Bool) : Fin n → Color :=
  if isCol then fun k => f k i else fun k => f i k

/-- `Face::set_slice`: overwrite the ith row or column with `s`. -/
def setSlice (f : Face n) (i : Fin n) (isCol : Bool) (s : Fin n → Color) : Face n :=
  if isCol then fun a b => if b = i then s a else f a b
  else fun a b => if a = i then s b else f a b

/-- `Array1::invert_axis(Axis(0))` on a slice: reverse it. -/
def revSlice (s : Fin n → Color) : Fin n → Color := fun k => s k.rev

/-- Conditionally reverse a slice (the `if check_is_reversed(d) { ps.invert_axis(..) }`
step of `rotate_band`). -/
def maybeRev (b : Bool) (s : Fin n → Color) : Fin n → Color :=
  if b then revSlice s else s

/-- `Face::is_single_color`: all entries equal.  (The source compares every entry
with the first one and panics on an empty face, which `Face::new` rules out;
for `n ≥ 1` the two phrasings agree.) -/
def Face.is_single_color (f : Face n) : Bool :=
  decide (∀ i j k l : Fin n, f i j = f k l)

/-- `CubeAxis` (src/cube/mod.rs). -/
inductive CubeAxis
  | X
  | Y
  | Z
deriving DecidableEq, Repr, Fintype

/-- `FaceDir` (src/cube/mod.rs). -/
inductive FaceDir
  | Up
  | Down
  | Right
  | Left
  | Front
  | Back
deriving DecidableEq, Repr, Fintype

/-- `FaceDir::get_dir_surrounding_axis`: the four directions around an axis, in
rotational order starting from the alphabetically first one; reversed for
counter-clockwise. -/
def getDirSurroundingAxis (axis : CubeAxis) (td : TurnDir) : List FaceDir :=
  let result : List FaceDir :=
    match axis with
    | .X => [.Back, .Down, .Front, .Up]
    | .Y => [.Back, .Right, .Front, .Left]
    | .Z => [.Down, .Left, .Up, .Right]
  if td = .CounterClockwise then result.reverse else result

/-- `FaceDir::get_axis`. -/
def FaceDir.get_axis : FaceDir → CubeAxis
  | .Up => .Y
  | .Down => .Y
  | .Right => .X
  | .Left => .X
  | .Front => .Z
  | .Back => .Z

/-- `FaceDir::is_positive`. -/
def FaceDir.is_positive : FaceDir → Bool
  | .Up => true
  | .Down => false
  | .Right => true
  | .Left => false
  | .Front => true
  | .Back => false

/-- `FaceDir::get_rotate_axis_and_dir`. -/
def FaceDir.get_rotate_axis_and_dir (d : FaceDir) (td : TurnDir) : CubeAxis × TurnDir :=
  (d.get_axis, if d.is_positive then td else td.get_reversed)

/-- `FaceDir::apply_rotation`: advance `d` one step in the 4-cycle around `axis`
(identity for the two directions on the axis).  The index `(i+1) % 4` is always
in range; `getD` uses `d` as a (never used) fallback. -/
def FaceDir.apply_rotation (d : FaceDir) (axis : CubeAxis) (td : TurnDir) : FaceDir :=
  let s := getDirSurroundingAxis axis td
  match s.findIdx? (fun fd => decide (fd = d)) with
  | some i => s.getD ((i + 1) % 4) d
  | none => d

/-- `Turn` (src/cube/mod.rs): a face direction plus a turn direction. -/
structure Turn where
  faceDir : FaceDir
  turnDir : TurnDir
deriving DecidableEq, Repr, Fintype

/-- `Turn::is_reversed`: same face, opposite direction. -/
def Turn.is_reversed (t other : Turn) : Bool :=
  decide (t.faceDir = other.faceDir) && decide (t.turnDir = other.turnDir.get_reversed)

/-- The reverse of a turn (same face, reversed direction); `t.is_reversed (revTurn t)`
holds by definition.  Used to state the spec claims about "the reverse of T". -/
def revTurn (t : Turn) : Turn := ⟨t.faceDir, t.turnDir.get_reversed⟩

/-- `Cube` (src/cube/mod.rs): six faces plus the direction order of the `faces`
array.  The cube size is the type index `n`. -/
structure Cube (n : Nat) where
  faces : Fin 6 → Face n
  dirOrder : Fin 6 → FaceDir

/-- `Cube::INIT_CONFIG`: which face direction initially has which color. -/
def initConfig : Fin 6 → FaceDir × Color :=
  ![(.Up, .Yellow), (.Down, .White), (.Left, .Green), (.Right, .Blue),
    (.Front, .Orange), (.Back, .Red)]

/-- `Cube::new`: six single-colored faces in `INIT_CONFIG` order.
(`Face::new` panics for size 0; all claims concern sizes ≥ 1.) -/
def Cube.new (n : Nat) : Cube n where
  faces := fun i => fun _ _ => (initConfig i).2
  dirOrder := fun i => (initConfig i).1

instance : DecidableEq (Cube n) := fun a b =>
  if h1 : a.faces = b.faces then
    if h2 : a.dirOrder = b.dirOrder then
      .isTrue (by cases a; cases b; simp_all)
    else .isFalse (fun hc => h2 (by rw [hc]))
  else .isFalse (fun hc => h1 (by rw [hc]))

/-- `Cube::get_dir_index`: position of `d` in `dir_order` (first match;
the source `unwrap`s, so a missing direction is a panic = `none`). -/
def Cube.get_dir_index (c : Cube n) (d : FaceDir) : Option (Fin 6) :=
  (List.finRange 6).find? fun i => decide (c.dirOrder i = d)

/-- `Cube::get_face` seen as a total function: the face currently assigned to
direction `d` (junk value if `d` is absent from `dir_order`, which cannot
happen while `dir_order` is a permutation). -/
def Cube.faceAt (c : Cube n) : FaceDir → Face n := fun d =>
  match c.get_dir_index d with
  | some i => c.faces i
  | none => fun _ _ => Color.White

/-- `Cube::get_axes_order`: where the two matrix axes of the face at `d` point. -/
def getAxesOrder : FaceDir → List FaceDir
  | .Up => [.Front, .Right]
  | .Down => [.Back, .Right]
  | .Right => [.Down, .Back]
  | .Left => [.Down, .Front]
  | .Front => [.Down, .Right]
  | .Back => [.Down, .Left]

/-- The `check_is_from_start` closure of `Cube::rotate_band`. -/
def checkIsFromStart (axisRot : CubeAxis) (isPos : Bool) (d : FaceDir) : Bool :=
  (getAxesOrder d).any fun fd =>
    decide (fd.get_axis = axisRot) && decide (fd.is_positive ≠ isPos)

/-- The `check_is_column` closure of `Cube::rotate_band`. -/
def checkIsColumn (axisRot : CubeAxis) (d : FaceDir) : Bool :=
  decide (axisRot ≠ ((getAxesOrder d).headD d).get_axis)

/-- The `check_is_reversed` closure of `Cube::rotate_band`. -/
def checkIsReversed (axisRot : CubeAxis) (rotateDir : TurnDir) (d : FaceDir) : Bool :=
  match axisRot with
  | .X =>
    decide (d = .Back) ||
      (match rotateDir with
       | .Clockwise => decide (d = .Down)
       | .CounterClockwise => decide (d = .Up))
  | .Y => false
  | .Z =>
    match rotateDir with
    | .Clockwise => decide (d = .Down) || decide (d = .Up)
    | .CounterClockwise => decide (d = .Right) || decide (d = .Left)

/-- The loop body of `Cube::rotate_band`, iterated over the surrounding
directions (with the first one appended again at the end).  Carries the cube
and the previous slice.  For every visited direction: compute the slice index,
look the face up (panic = `none` if absent), bounds-check the index (ndarray
would panic out of range), read the current slice, then overwrite it with the
previous one (conditionally reversed). -/
def bandFold (fS fC fR : FaceDir → Bool) (layer : Nat) :
    List FaceDir → Cube n → Option (Fin n → Color) → Option (Cube n)
  | [], c, _ => some c
  | d :: ds, c, prev =>
    let iNat := if fS d then layer - 1 else n - layer
    match c.get_dir_index d with
    | none => none
    | some idx =>
      if h : iNat < n then
        let i : Fin n := ⟨iNat, h⟩
        let curr := getSlice (c.faces idx) i (fC d)
        let c' : Cube n :=
          match prev with
          | none => c
          | some ps =>
            { c with
              faces :=
                Function.update c.faces idx
                  (setSlice (c.faces idx) i (fC d) (maybeRev (fR d) ps)) }
        bandFold fS fC fR layer ds c' (some curr)
      else none

/-- `Cube::rotate_band`. -/
def Cube.rotate_band (c : Cube n) (t : Turn) (layer : Nat) : Option (Cube n) :=
  let ar := t.faceDir.get_rotate_axis_and_dir t.turnDir
  let sd := getDirSurroundingAxis ar.1 ar.2
  bandFold (checkIsFromStart ar.1 t.faceDir.is_positive) (checkIsColumn ar.1)
    (checkIsReversed ar.1 ar.2) layer (sd ++ sd.take 1) c none

/-- `Cube::turn_layer`.  `layer == 0` panics (`none`) before touching the cube;
`layer == 1` also rotates the face itself before rotating the band. -/
def Cube.turn_layer (c : Cube n) (t : Turn) (layer : Nat) : Option (Cube n) :=
  if layer = 0 then none
  else
    (if layer = 1 then
        match c.get_dir_index t.faceDir with
        | none => none
        | some i =>
          some { c with faces := Function.update c.faces i ((c.faces i).rotate t.turnDir) }
      else some c).bind
      fun c1 => c1.rotate_band t layer

/-- `Cube::is_solved`: every face is single-colored. -/
def Cube.is_solved (c : Cube n) : Bool :=
  decide (∀ i : Fin 6, (c.faces i).is_single_color)

/-- `Cube::apply_algorithm`: apply the turns in order, layer fixed at 1. -/
def Cube.apply_algorithm (c : Cube n) (algo : List Turn) : Option (Cube n) :=
  algo.foldlM (fun cc t => cc.turn_layer t 1) c

/-- `Cube::rotate_whole_cube`: advance every entry of `dir_order` along the
4-cycle of `axis`; the faces themselves are untouched. -/
def Cube.rotate_whole_cube (c : Cube n) (axis : CubeAxis) (td : TurnDir) : Cube n :=
  { c with dirOrder := fun i => (c.dirOrder i).apply_rotation axis td }

/-- `Cube::hamming_distance` for two cubes of the same size: the number of
positions at which the `faces` arrays differ.  Note the source compares
`self.faces[i]` with `other.faces[i]` by storage index and never consults
`dir_order`. -/
def Cube.hamming_distance (a b : Cube n) : Nat :=
  ∑ i : Fin 6, ∑ p : Fin n, ∑ q : Fin n,
    if a.faces i p q ≠ b.faces i p q then 1 else 0

/-- Size-erased cube, to state the size-mismatch panic of `hamming_distance`
(cubes of different sizes cannot meet at the fixed-size type). -/
def CubeE := (n : Nat) × Cube n

/-- `Cube::hamming_distance` including its size guard: panics (`none`) exactly
when the sizes differ. -/
def hammingDistanceE : CubeE → CubeE → Option Nat
  | ⟨n, a⟩, ⟨m, b⟩ =>
    if h : n = m then some (Cube.hamming_distance (h ▸ a) b) else none

/-- Modelled from the spec: the per-direction sticker comparison that claim C1
asserts `hamming_distance` performs — compare, for each face direction, the
face *assigned to that direction* in each cube. -/
def specHammingByDir (a b : Cube n) : Nat :=
  ∑ d : FaceDir, ∑ p : Fin n, ∑ q : Fin n,
    if a.faceAt d p q ≠ b.faceAt d p q then 1 else 0

/-- One `for _ in 0..k { res.push(cube.clone()); rot(cube) }` loop of
`Cube::all_possible_solved_cubes`: the pushed snapshots plus the final cube. -/
def spinPush (rot : Cube n → Cube n) : Nat → Cube n → List (Cube n) × Cube n
  | 0, c => ([], c)
  | k + 1, c =>
    let r := spinPush rot k (rot c)
    (c :: r.1, r.2)

/-- The outer double loop of `Cube::all_possible_solved_cubes`:
`k` times (4 pushes spinning with `rotA`, then one `rotB`). -/
def spinPushBlock (rotA rotB : Cube n → Cube n) : Nat → Cube n → List (Cube n) × Cube n
  | 0, c => ([], c)
  | k + 1, c =>
    let inner := spinPush rotA 4 c
    let r := spinPushBlock rotA rotB k (rotB inner.2)
    (inner.1 ++ r.1, r.2)

/-- `Cube::all_possible_solved_cubes`: 4×4 Z-spins interleaved with Y-rotations,
then an X-rotation and 4 Z-spins, then two X-rotations and 4 more Z-spins. -/
def Cube.all_possible_solved_cubes (n : Nat) : List (Cube n) :=
  let z : Cube n → Cube n := fun c => c.rotate_whole_cube .Z .Clockwise
  let y : Cube n → Cube n := fun c => c.rotate_whole_cube .Y .Clockwise
  let x : Cube n → Cube n := fun c => c.rotate_whole_cube .X .Clockwise
  let p1 := spinPushBlock z y 4 (Cube.new n)
  let p2 := spinPush z 4 (x p1.2)
  let p3 := spinPush z 4 (x (x p2.2))
  p1.1 ++ (p2.1 ++ p3.1)

/-! ## Search engine (src/search.rs)

`Node` holds an `Rc<RefCell<..>>` back-pointer to its parent; in this pure
embedding each node owns its parent chain, and `RefCell` mutation becomes
state passing (`get_evaluation` returns the updated node).  Sharing of one
parent between siblings affects only performance, never values, because the
heuristic is a pure function. -/

/-- `Node` (src/search.rs): state, action that reached it, parent, path cost,
and the evaluation cache. -/
inductive PNode (n : Nat) where
  | root (state : Cube n) (evaluation : Option Nat)
  | child (state : Cube n) (prevAction : Turn) (parent : PNode n) (pathCost : Nat)
      (evaluation : Option Nat)

def PNode.state : PNode n → Cube n
  | .root s _ => s
  | .child s _ _ _ _ => s

def PNode.prevAction : PNode n → Option Turn
  | .root _ _ => none
  | .child _ a _ _ _ => some a

def PNode.pathCost : PNode n → Nat
  | .root _ _ => 0
  | .child _ _ _ g _ => g

def PNode.evalCache : PNode n → Option Nat
  | .root _ e => e
  | .child _ _ _ _ e => e

/-- The parent chain of a node (nearest first). -/
def PNode.ancestors : PNode n → List (PNode n)
  | .root _ _ => []
  | .child _ _ p _ _ => p :: p.ancestors

/-- `.ceil() as usize` applied to the `f32` heuristic value, on the exact
rational model (`Int.toNat` saturates at 0 exactly like Rust's float→usize
cast). -/
def hceil (q : ℚ) : Nat := (Int.ceil q).toNat

/-- `Node::get_evaluation`: if cached, return the cache; otherwise compute
`new_h`, and — only when there is a parent — take
`max(path_cost + new_h, parent_f)` and store it.  Note the `None` (root)
branch of the source returns `new_h` *without* storing it. -/
def get_evaluation (hf : Cube n → ℚ) : PNode n → Nat × PNode n
  | .root s e? =>
    match e? with
    | some f => (f, .root s (some f))
    | none => (hceil (hf s), .root s none)
  | .child s a p g e? =>
    match e? with
    | some f => (f, .child s a p g (some f))
    | none =>
      let newH := hceil (hf s)
      let pr := get_evaluation hf p
      let f := max (g + newH) pr.1
      (f, .child s a pr.2 g (some f))

/-- The evaluation value of a node. -/
def fval (hf : Cube n → ℚ) (nd : PNode n) : Nat := (get_evaluation hf nd).1

/-- `Node::is_goal`. -/
def PNode.is_goal (nd : PNode n) : Bool := nd.state.is_solved

/-- `Node::get_path`: actions from the root to this node. -/
def PNode.get_path : PNode n → List Turn
  | .root _ _ => []
  | .child _ a p _ _ => p.get_path ++ [a]

/-- The six candidate moves of `Node::generate_children`, in source order:
only Right, Up, Front (one direction per axis), clockwise then
counter-clockwise. -/
def childCandidates : List Turn :=
  [⟨.Right, .Clockwise⟩, ⟨.Right, .CounterClockwise⟩,
   ⟨.Up, .Clockwise⟩, ⟨.Up, .CounterClockwise⟩,
   ⟨.Front, .Clockwise⟩, ⟨.Front, .CounterClockwise⟩]

/-- `Node::generate_children`: skip the move that reverses the parent's last
action, apply each remaining turn at layer 1 (`none` propagates a panic). -/
def generate_children (p : PNode n) : Option (List (PNode n)) :=
  (childCandidates.filter fun t =>
      match p.prevAction with
      | none => true
      | some pt => !(pt.is_reversed t)).mapM
    fun t =>
      (p.state.turn_layer t 1).map fun st =>
        PNode.child st t p (p.pathCost + 1) none

/-- `SearchResult` (src/search.rs) minus `wall_time` (real time is outside the
embedding; the source always populates it from `Instant::elapsed`). -/
structure SearchResultM where
  solution : Option (List Turn)
  solutionLen : Option Nat
  nodeVisited : Nat
deriving DecidableEq, Repr

/-- `usize::MAX`, the initial `min_f` of each iteration. -/
def usizeMax : Nat := 2 ^ 64 - 1

/-- `GIVE_UP_LIMIT` (src/search.rs). -/
def giveUpLimit : Nat := 28

/-- Outcome of one inner depth-first pass of `idastar`. -/
inductive DfsOut where
  | found (path : List Turn) (visited : Nat)
  | exhausted (minF : Nat) (visited : Nat)
deriving DecidableEq, Repr

/-- The inner `while !node_stack.is_empty()` loop of `idastar`, with explicit
fuel (`none` = fuel ran out or a panic propagated).  The list head is the top
of the `Vec` stack, so children are pushed in reverse generation order. -/
def dfsPass (hf : Cube n → ℚ) (limit : Nat) :
    Nat → List (PNode n) → Nat → Nat → Option DfsOut
  | _, [], visited, minF => some (.exhausted minF visited)
  | 0, _ :: _, _, _ => none
  | fuel + 1, nd :: rest, visited, minF =>
    let visited1 := visited + 1
    let pr := get_evaluation hf nd
    if pr.1 > limit then dfsPass hf limit fuel rest visited1 (min minF pr.1)
    else if pr.2.is_goal then some (.found pr.2.get_path visited1)
    else
      match generate_children pr.2 with
      | none => none
      | some ch => dfsPass hf limit fuel (ch.reverse ++ rest) visited1 minF

/-- The outer iterative-deepening loop of `idastar`: run a pass from the root;
on exhaustion raise the limit to `min_f` and retry, giving up once the new
limit exceeds `GIVE_UP_LIMIT`. -/
def idastarGo (hf : Cube n → ℚ) (root : PNode n) (dfsFuel : Nat) :
    Nat → Nat → Nat → Option SearchResultM
  | 0, _, _ => none
  | ofuel + 1, limit, visited =>
    match dfsPass hf limit dfsFuel [root] visited usizeMax with
    | none => none
    | some (.found path v) => some ⟨some path, some path.length, v⟩
    | some (.exhausted minF v) =>
      if minF > giveUpLimit then some ⟨none, none, v⟩
      else idastarGo hf root dfsFuel ofuel minF v

/-- `idastar` (src/search.rs): initial limit is the root evaluation; fuel makes
the two unbounded source loops structurally recursive. -/
def idastar (hf : Cube n → ℚ) (c : Cube n) (ofuel dfsFuel : Nat) : Option SearchResultM :=
  let root : PNode n := .root c none
  let pr := get_evaluation hf root
  idastarGo hf pr.2 dfsFuel ofuel pr.1 0

/-- `single_l0` (src/search.rs): Hamming distance to the one fixed solved 2×2
cube, divided by 12. -/
def single_l0 (c : Cube 2) : ℚ := (c.hamming_distance (Cube.new 2) : ℚ) / 12

/-- `all_l0` (src/search.rs): minimum Hamming distance over all 24 solved
orientations, divided by 12.  The source memoizes the orientation list in an
`unsafe static` cache; the cache changes no value, so it is dropped here. -/
def all_l0 (c : Cube 2) : ℚ :=
  ((((Cube.all_possible_solved_cubes 2).foldl
      (fun m g => min m (c.hamming_distance g)) usizeMax : ℕ)) : ℚ) / 12

/-! ## Helper lemmas -/

/-- Kernel-friendly restatement of the single-goal heuristic: its ceiling is a
Nat ceiling division. -/
def l0N (c : Cube 2) : ℚ := ((c.hamming_distance (Cube.new 2) + 11) / 12 : ℕ)

theorem ceil_div_twelve (a : ℕ) : ⌈(a : ℚ) / 12⌉ = ((a + 11) / 12 : ℕ) := by
  set k : ℕ := (a + 11) / 12 with hk
  have h1 : 12 * k ≤ a + 11 := by omega
  have h2 : a ≤ 12 * k := by omega
  have h1q : (12 : ℚ) * (k : ℚ) ≤ (a : ℚ) + 11 := by exact_mod_cast h1
  have h2q : (a : ℚ) ≤ 12 * (k : ℚ) := by exact_mod_cast h2
  rw [Int.ceil_eq_iff]
  constructor
  · rw [lt_div_iff₀ (by norm_num : (0 : ℚ) < 12), Int.cast_natCast]
    linarith
  · rw [div_le_iff₀ (by norm_num : (0 : ℚ) < 12), Int.cast_natCast]
    linarith

theorem hceil_single_l0 (c : Cube 2) : hceil (single_l0 c) = hceil (l0N c) := by
  unfold hceil single_l0 l0N
  rw [ceil_div_twelve, Int.ceil_natCast]

theorem get_evaluation_congr {hf hf' : Cube n → ℚ}
    (h : ∀ s, hceil (hf s) = hceil (hf' s)) :
    ∀ nd : PNode n, get_evaluation hf nd = get_evaluation hf' nd := by
  intro nd
  induction nd with
  | root s e? => cases e? <;> simp [get_evaluation, h]
  | child s a p g e? ih => cases e? <;> simp [get_evaluation, h, ih]

theorem dfsPass_congr {hf hf' : Cube n → ℚ}
    (h : ∀ s, hceil (hf s) = hceil (hf' s)) (limit : Nat) :
    ∀ (fuel : Nat) (stack : List (PNode n)) (visited minF : Nat),
      dfsPass hf limit fuel stack visited minF = dfsPass hf' limit fuel stack visited minF := by
  intro fuel
  induction fuel with
  | zero => intro stack v m; cases stack <;> rfl
  | succ fuel ih =>
    intro stack v m
    cases stack with
    | nil => rfl
    | cons nd rest =>
      simp only [dfsPass, get_evaluation_congr h nd]
      split
      · exact ih _ _ _
      · split
        · rfl
        · cases generate_children (get_evaluation hf' nd).2 <;> simp only [ih]

theorem idastarGo_congr {hf hf' : Cube n → ℚ}
    (h : ∀ s, hceil (hf s) = hceil (hf' s)) (root : PNode n) (dfsFuel : Nat) :
    ∀ (ofuel limit visited : Nat),
      idastarGo hf root dfsFuel ofuel limit visited =
        idastarGo hf' root dfsFuel ofuel limit visited := by
  intro ofuel
  induction ofuel with
  | zero => intro l v; rfl
  | succ ofuel ih =>
    intro l v
    simp only [idastarGo, dfsPass_congr h]
    cases dfsPass hf' l dfsFuel [root] v usizeMax with
    | none => rfl
    | some o =>
      cases o with
      | found p v2 => rfl
      | exhausted m v2 => simp only [ih]

theorem idastar_congr {hf hf' : Cube n → ℚ}
    (h : ∀ s, hceil (hf s) = hceil (hf' s)) (c : Cube n) (ofuel dfsFuel : Nat) :
    idastar hf c ofuel dfsFuel = idastar hf' c ofuel dfsFuel := by
  unfold idastar
  simp only [get_evaluation_congr h, idastarGo_congr h]

/-! Faces are invariant under whole-cube rotation, so all 24 "solved
orientations" share one `faces` array and `hamming_distance` (which reads only
`faces`) cannot tell them apart. -/

theorem rotate_whole_cube_faces (c : Cube n) (axis : CubeAxis) (td : TurnDir) :
    (c.rotate_whole_cube axis td).faces = c.faces := rfl

theorem spinPush_faces {rot : Cube n → Cube n} (hrot : ∀ c, (rot c).faces = c.faces) :
    ∀ (k : Nat) (c : Cube n),
      (∀ x ∈ (spinPush rot k c).1, x.faces = c.faces) ∧ (spinPush rot k c).2.faces = c.faces := by
  intro k
  induction k with
  | zero => intro c; simp [spinPush]
  | succ k ih =>
    intro c
    obtain ⟨ih1, ih2⟩ := ih (rot c)
    refine ⟨?_, by simpa [spinPush, hrot] using ih2⟩
    intro x hx
    rcases (by simpa [spinPush] using hx : x = c ∨ x ∈ (spinPush rot k (rot c)).1) with h | h
    · simp [h]
    · simpa [hrot] using ih1 x h

theorem spinPushBlock_faces {rotA rotB : Cube n → Cube n}
    (hA : ∀ c, (rotA c).faces = c.faces) (hB : ∀ c, (rotB c).faces = c.faces) :
    ∀ (k : Nat) (c : Cube n),
      (∀ x ∈ (spinPushBlock rotA rotB k c).1, x.faces = c.faces) ∧
        (spinPushBlock rotA rotB k c).2.faces = c.faces := by
  intro k
  induction k with
  | zero => intro c; simp [spinPushBlock]
  | succ k ih =>
    intro c
    obtain ⟨hi1, hi2⟩ := spinPush_faces hA 4 c
    obtain ⟨ih1, ih2⟩ := ih (rotB (spinPush rotA 4 c).2)
    constructor
    · intro x hx
      rcases (by simpa [spinPushBlock] using hx :
          x ∈ (spinPush rotA 4 c).1 ∨ x ∈ (spinPushBlock rotA rotB k (rotB (spinPush rotA 4 c).2)).1)
        with h | h
      · exact hi1 x h
      · rw [ih1 x h, hB, hi2]
    · simp only [spinPushBlock]
      rw [ih2, hB, hi2]

theorem mem_allPossible_faces {c : Cube n} (h : c ∈ Cube.all_possible_solved_cubes n) :
    c.faces = (Cube.new n).faces := by
  have hz : ∀ d : Cube n, (d.rotate_whole_cube .Z .Clockwise).faces = d.faces := fun _ => rfl
  have hy : ∀ d : Cube n, (d.rotate_whole_cube .Y .Clockwise).faces = d.faces := fun _ => rfl
  have hx : ∀ d : Cube n, (d.rotate_whole_cube .X .Clockwise).faces = d.faces := fun _ => rfl
  unfold Cube.all_possible_solved_cubes at h
  set z : Cube n → Cube n := fun c => c.rotate_whole_cube .Z .Clockwise with hzdef
  set y : Cube n → Cube n := fun c => c.rotate_whole_cube .Y .Clockwise with hydef
  set x : Cube n → Cube n := fun c => c.rotate_whole_cube .X .Clockwise with hxdef
  obtain ⟨h1, h2⟩ := spinPushBlock_faces hz hy 4 (Cube.new n)
  set p1 := spinPushBlock z y 4 (Cube.new n) with hp1
  obtain ⟨h3, h4⟩ := spinPush_faces hz 4 (x p1.2)
  set p2 := spinPush z 4 (x p1.2) with hp2
  obtain ⟨h5, h6⟩ := spinPush_faces hz 4 (x (x p2.2))
  have hxp1 : (x p1.2).faces = (Cube.new n).faces := by rw [hx, h2]
  have hxxp2 : (x (x p2.2)).faces = (Cube.new n).faces := by rw [hx, hx, h4, hxp1]
  simp only [List.mem_append] at h
  rcases h with h | h | h
  · exact h1 _ h
  · rw [h3 _ h, hxp1]
  · rw [h5 _ h, hxxp2]

theorem hamming_congr_right {a b b' : Cube n} (h : b.faces = b'.faces) :
    a.hamming_distance b = a.hamming_distance b' := by
  unfold Cube.hamming_distance
  rw [h]

theorem hamming_le (a b : Cube n) : a.hamming_distance b ≤ 6 * (n * n) := by
  unfold Cube.hamming_distance
  calc (∑ i : Fin 6, ∑ p : Fin n, ∑ q : Fin n,
        if a.faces i p q ≠ b.faces i p q then 1 else 0)
      ≤ ∑ _i : Fin 6, ∑ _p : Fin n, ∑ _q : Fin n, 1 := by
        refine Finset.sum_le_sum fun i _ => Finset.sum_le_sum fun p _ => Finset.sum_le_sum ?_
        intro q _
        split <;> omega
    _ = 6 * (n * n) := by simp [Finset.sum_const, mul_assoc]

theorem foldl_min_const {α : Type} {k : Nat} {H : α → Nat} :
    ∀ (l : List α) (M : Nat), l ≠ [] → (∀ g ∈ l, H g = k) → k ≤ M →
      l.foldl (fun m g => min m (H g)) M = k := by
  intro l
  induction l with
  | nil => intro M hne; exact absurd rfl hne
  | cons g gs ih =>
    intro M _ hall hk
    have hg : H g = k := hall g (by simp)
    cases gs with
    | nil => simp [hg, Nat.min_eq_right hk]
    | cons g2 gs2 =>
      have : List.foldl (fun m g => min m (H g)) (min M (H g)) (g2 :: gs2) = k := by
        refine ih _ (by simp) (fun x hx => hall x (by simp [hx])) ?_
        rw [hg]; exact le_min hk le_rfl
      simpa using this

theorem allPossible_len (n : Nat) : (Cube.all_possible_solved_cubes n).length = 24 := by
  have hp : ∀ (rot : Cube n → Cube n) (k : Nat) (c : Cube n),
      (spinPush rot k c).1.length = k := by
    intro rot k
    induction k with
    | zero => intro c; rfl
    | succ k ih => intro c; simp [spinPush, ih]
  have hb : ∀ (rotA rotB : Cube n → Cube n) (k : Nat) (c : Cube n),
      (spinPushBlock rotA rotB k c).1.length = 4 * k := by
    intro rotA rotB k
    induction k with
    | zero => intro c; rfl
    | succ k ih => intro c; simp [spinPushBlock, hp, ih]; omega
  simp [Cube.all_possible_solved_cubes, hp, hb]

theorem allPossible_ne_nil (n : Nat) : Cube.all_possible_solved_cubes n ≠ [] := by
  intro h
  have := allPossible_len n
  rw [h] at this
  simp at this

theorem all_l0_eq_single_l0 (c : Cube 2) : all_l0 c = single_l0 c := by
  unfold all_l0 single_l0
  have hfold :
      (Cube.all_possible_solved_cubes 2).foldl
          (fun m g => min m (c.hamming_distance g)) usizeMax =
        c.hamming_distance (Cube.new 2) := by
    refine foldl_min_const _ _ (allPossible_ne_nil 2) ?_ ?_
    · intro g hg
      exact hamming_congr_right (mem_allPossible_faces hg)
    · calc c.hamming_distance (Cube.new 2) ≤ 6 * (2 * 2) := hamming_le c (Cube.new 2)
        _ ≤ usizeMax := by unfold usizeMax; norm_num
  rw [hfold]

/-! ## `dir_order` lookup infrastructure -/

theorem find?_exists {α : Type} {p : α → Bool} :
    ∀ {l : List α}, (∃ x ∈ l, p x) → ∃ y, l.find? p = some y ∧ p y := by
  intro l
  induction l with
  | nil => rintro ⟨x, hx, _⟩; simp at hx
  | cons a as ih =>
    rintro ⟨x, hx, hpx⟩
    by_cases ha : p a
    · exact ⟨a, by simp [List.find?, ha], ha⟩
    · have hxas : x ∈ as := by
        rcases List.mem_cons.mp hx with h | h
        · subst h; exact absurd hpx ha
        · exact h
      obtain ⟨y, hy, hpy⟩ := ih ⟨x, hxas, hpx⟩
      exact ⟨y, by simp [List.find?, ha, hy], hpy⟩

theorem get_dir_index_eq {c : Cube n} (hinj : Function.Injective c.dirOrder)
    {i : Fin 6} {d : FaceDir} (h : c.dirOrder i = d) : c.get_dir_index d = some i := by
  obtain ⟨y, hy, hpy⟩ :=
    find?_exists (l := List.finRange 6) (p := fun j => decide (c.dirOrder j = d))
      ⟨i, List.mem_finRange i, by simp [h]⟩
  have : c.dirOrder y = d := of_decide_eq_true hpy
  have : y = i := hinj (this.trans h.symm)
  subst this
  exact hy

theorem get_dir_index_dirOrder {c : Cube n} {i : Fin 6} {d : FaceDir}
    (h : c.get_dir_index d = some i) : c.dirOrder i = d := by
  have := List.find?_some h
  exact of_decide_eq_true this

theorem faceAt_of_index {c : Cube n} {i : Fin 6} {d : FaceDir}
    (h : c.get_dir_index d = some i) : c.faceAt d = c.faces i := by
  unfold Cube.faceAt
  rw [h]

theorem faceAt_dirOrder {c : Cube n} (hinj : Function.Injective c.dirOrder) (i : Fin 6) :
    c.faceAt (c.dirOrder i) = c.faces i :=
  faceAt_of_index (get_dir_index_eq hinj rfl)

/-! ## Claim theorems: C8, C9, C10 -/

/-- C8: for every cube state and every turn, `turn_layer` with `layer == 0`
panics (modelled as `none`); the guard is the first statement of the source
function, before any mutation. -/
theorem spec_C8_layer_zero_panics : ∀ (n : Nat) (c : Cube n) (t : Turn),
    c.turn_layer t 0 = none := by
  intro n c t
  simp [Cube.turn_layer]

/-- C9: `rotate_whole_cube` leaves every face's sticker matrix unchanged (the
size is the type index, hence unchanged), modifies only `dir_order` (by the
4-cycle `apply_rotation`), and maps a permutation `dir_order` to a permutation. -/
theorem spec_C9_rotate_whole_cube_frame :
    ∀ (n : Nat) (c : Cube n) (axis : CubeAxis) (td : TurnDir),
      (c.rotate_whole_cube axis td).faces = c.faces ∧
      (c.rotate_whole_cube axis td).dirOrder =
        (fun i => (c.dirOrder i).apply_rotation axis td) ∧
      (Function.Bijective c.dirOrder →
        Function.Bijective (c.rotate_whole_cube axis td).dirOrder) := by
  intro n c axis td
  refine ⟨rfl, rfl, ?_⟩
  intro hb
  have hrotinj : Function.Injective (fun d => FaceDir.apply_rotation d axis td) := by
    revert axis td
    decide
  have hinj : Function.Injective (c.rotate_whole_cube axis td).dirOrder := by
    intro i j hij
    exact hb.injective (hrotinj hij)
  exact (Fintype.bijective_iff_injective_and_card _).mpr ⟨hinj, by decide⟩

/-- C9 witness: the frame conditions hold at a concrete cube with a concrete
rotation, the permutation hypothesis discharged by computation. -/
theorem spec_C9_witness :
    ((Cube.new 2).rotate_whole_cube .Z .Clockwise).faces = (Cube.new 2).faces ∧
    ((Cube.new 2).rotate_whole_cube .Z .Clockwise).dirOrder =
      (fun i => ((Cube.new 2).dirOrder i).apply_rotation .Z .Clockwise) ∧
    Function.Bijective ((Cube.new 2).rotate_whole_cube .Z .Clockwise).dirOrder := by
  obtain ⟨h1, h2, h3⟩ := spec_C9_rotate_whole_cube_frame 2 (Cube.new 2) .Z .Clockwise
  exact ⟨h1, h2, h3 (by decide)⟩

/-- C10: on every cube of size 2 the symmetry-aware heuristic `all_l0` returns
exactly the value of the single-goal heuristic `single_l0` — a consequence of
`hamming_distance` comparing `faces` by storage index while the 24 solved
orientations all share one `faces` array. -/
theorem spec_C10_all_l0_eq_single_l0 : ∀ c : Cube 2, all_l0 c = single_l0 c :=
  all_l0_eq_single_l0

theorem hamming_eq_zero_of_faces {a b : Cube n} (h : a.faces = b.faces) :
    a.hamming_distance b = 0 := by
  unfold Cube.hamming_distance
  rw [h]
  simp

theorem is_solved_congr {a b : Cube n} (h : a.faces = b.faces) :
    a.is_solved = b.is_solved := by
  unfold Cube.is_solved
  rw [h]

theorem new_is_solved (n : Nat) : (Cube.new n).is_solved = true := by
  simp [Cube.is_solved, Cube.new, Face.is_single_color]

/-! ## Claim theorems: C1, C2 -/

/-- C1 counterexample: two cubes that differ only in `dir_order` (so the faces
assigned to each direction differ — 16 mismatching stickers by the claim's
per-direction reading) have code Hamming distance 0, because the source
compares `faces[i]` by storage index and never consults `dir_order`. -/
theorem spec_C1_counterexample :
    (Cube.new 2).hamming_distance ((Cube.new 2).rotate_whole_cube .Z .Clockwise) = 0 ∧
    specHammingByDir (Cube.new 2) ((Cube.new 2).rotate_whole_cube .Z .Clockwise) = 16 ∧
    ((Cube.new 2).rotate_whole_cube .Z .Clockwise).dirOrder ≠ (Cube.new 2).dirOrder := by
  decide

/-- C1 (amended): `hamming_distance` counts sticker mismatches at equal storage
index; this agrees with the claim's per-direction count exactly when both cubes
carry the same `dir_order` permutation.  The size guard panics (`none`) exactly
when the sizes differ. -/
theorem spec_C1_amended :
    (∀ (n : Nat) (a b : Cube n), a.dirOrder = b.dirOrder → Function.Bijective a.dirOrder →
      a.hamming_distance b = specHammingByDir a b) ∧
    (∀ ea eb : CubeE, hammingDistanceE ea eb = none ↔ ea.1 ≠ eb.1) := by
  constructor
  · intro n a b hd hb
    unfold Cube.hamming_distance specHammingByDir
    rw [← Equiv.sum_comp (Equiv.ofBijective a.dirOrder hb)
      (fun d => ∑ p : Fin n, ∑ q : Fin n, if a.faceAt d p q ≠ b.faceAt d p q then 1 else 0)]
    refine Finset.sum_congr rfl ?_
    intro i _
    have hbinj : Function.Injective b.dirOrder := by rw [← hd]; exact hb.injective
    have h1 : a.faceAt (a.dirOrder i) = a.faces i := faceAt_dirOrder hb.injective i
    have h2 : b.faceAt (a.dirOrder i) = b.faces i := by
      rw [hd]; exact faceAt_dirOrder hbinj i
    simp only [Equiv.ofBijective_apply, h1, h2]
  · rintro ⟨na, a⟩ ⟨nb, b⟩
    by_cases h : na = nb
    · subst h; simp [hammingDistanceE]
    · simp [hammingDistanceE, h]

/-- C1 witness: the amended equation at a concrete pair with equal `dir_order`,
and the size-mismatch panic at concrete sizes 2 and 3. -/
theorem spec_C1_witness :
    (Cube.new 2).hamming_distance (Cube.new 2) = specHammingByDir (Cube.new 2) (Cube.new 2) ∧
    (hammingDistanceE ⟨2, Cube.new 2⟩ ⟨3, Cube.new 3⟩ = none ↔ (2 : ℕ) ≠ 3) :=
  ⟨spec_C1_amended.1 2 (Cube.new 2) (Cube.new 2) rfl (by decide),
   spec_C1_amended.2 ⟨2, Cube.new 2⟩ ⟨3, Cube.new 3⟩⟩

/-- C2 counterexample: the first two members of `all_possible_solved_cubes 2`
are differently oriented (distinct `dir_order`, so the orientations do not
coincide), yet their Hamming distance is 0 — not strictly positive as claimed —
because `hamming_distance` ignores `dir_order`. -/
theorem spec_C2_counterexample :
    ((Cube.all_possible_solved_cubes 2).getD 0 (Cube.new 2)).hamming_distance
        ((Cube.all_possible_solved_cubes 2).getD 1 (Cube.new 2)) = 0 ∧
    ((Cube.all_possible_solved_cubes 2).getD 0 (Cube.new 2)).dirOrder ≠
      ((Cube.all_possible_solved_cubes 2).getD 1 (Cube.new 2)).dirOrder := by
  decide

/-- C2 (amended): `all_possible_solved_cubes` returns exactly 24 states, each
solved, each at Hamming distance 0 from itself — and in fact at Hamming
distance 0 from *every* member, since the members share one `faces` array and
the distance ignores orientation. -/
theorem spec_C2_amended : ∀ n : Nat,
    (Cube.all_possible_solved_cubes n).length = 24 ∧
    (∀ c ∈ Cube.all_possible_solved_cubes n, c.is_solved = true) ∧
    (∀ c ∈ Cube.all_possible_solved_cubes n, c.hamming_distance c = 0) ∧
    (∀ c c', c ∈ Cube.all_possible_solved_cubes n → c' ∈ Cube.all_possible_solved_cubes n →
      c.hamming_distance c' = 0) := by
  intro n
  refine ⟨allPossible_len n, ?_, ?_, ?_⟩
  · intro c hc
    rw [is_solved_congr (mem_allPossible_faces hc)]
    exact new_is_solved n
  · intro c _
    exact hamming_eq_zero_of_faces rfl
  · intro c c' hc hc'
    exact hamming_eq_zero_of_faces
      ((mem_allPossible_faces hc).trans (mem_allPossible_faces hc').symm)

/-- C2 witness: the amended facts at concrete members of the size-2 list. -/
theorem spec_C2_witness :
    ((Cube.all_possible_solved_cubes 2).getD 5 (Cube.new 2)).is_solved = true ∧
    ((Cube.all_possible_solved_cubes 2).getD 5 (Cube.new 2)).hamming_distance
      ((Cube.all_possible_solved_cubes 2).getD 7 (Cube.new 2)) = 0 :=
  ⟨(spec_C2_amended 2).2.1 _ (by decide),
   (spec_C2_amended 2).2.2.2 _ _ (by decide) (by decide)⟩

/-! ## Claim theorems: C4, C7 -/

/-- A node whose caches were produced by the search: every cached evaluation of
a child equals `max(path_cost + ceil h, parent f)`, and the root is never
cached (its `None` branch in `get_evaluation` stores nothing). -/
inductive Consistent (hf : Cube n → ℚ) : PNode n → Prop
  | root (s : Cube n) : Consistent hf (.root s none)
  | childNone {p : PNode n} (s : Cube n) (a : Turn) (g : Nat) :
      Consistent hf p → Consistent hf (.child s a p g none)
  | childSome {p : PNode n} (s : Cube n) (a : Turn) (g : Nat) {f : Nat} :
      Consistent hf p → f = max (g + hceil (hf s)) (fval hf p) →
      Consistent hf (.child s a p g (some f))

theorem fval_child_consistent {hf : Cube n → ℚ} {p : PNode n} {s : Cube n} {a : Turn}
    {g : Nat} {e? : Option Nat} (h : Consistent hf (.child s a p g e?)) :
    fval hf (.child s a p g e?) = max (g + hceil (hf s)) (fval hf p) := by
  cases h with
  | childNone s a g hp => simp [fval, get_evaluation]
  | childSome s a g hp hf' => simpa [fval, get_evaluation] using hf'

theorem fval_le_child {hf : Cube n → ℚ} {p : PNode n} {s : Cube n} {a : Turn}
    {g : Nat} {e? : Option Nat} (h : Consistent hf (.child s a p g e?)) :
    fval hf p ≤ fval hf (.child s a p g e?) := by
  rw [fval_child_consistent h]
  exact le_max_right _ _

theorem consistent_parent {hf : Cube n → ℚ} {p : PNode n} {s : Cube n} {a : Turn}
    {g : Nat} {e? : Option Nat} (h : Consistent hf (.child s a p g e?)) :
    Consistent hf p := by
  cases h with
  | childNone _ _ _ hp => exact hp
  | childSome _ _ _ hp _ => exact hp

theorem fval_mono_ancestors {hf : Cube n → ℚ} :
    ∀ {nd : PNode n}, Consistent hf nd → ∀ anc ∈ nd.ancestors, fval hf anc ≤ fval hf nd := by
  intro nd
  induction nd with
  | root s e? => intro _ anc h; simp [PNode.ancestors] at h
  | child s a p g e? ih =>
    intro hc anc hanc
    rcases (by simpa [PNode.ancestors] using hanc : anc = p ∨ anc ∈ p.ancestors) with h | h
    · subst h; exact fval_le_child hc
    · exact le_trans (ih (consistent_parent hc) anc h) (fval_le_child hc)

/-- C4 counterexample: the root node's evaluation is *not* cached once computed
— the `None`-parent branch of `Node::get_evaluation` returns `new_h` without
storing it, so the heuristic is recomputed on every later call for the root.
(This refutes the claim's "for every node, once its evaluation has been
computed it is cached and the heuristic is never recomputed".) -/
theorem spec_C4_counterexample :
    (get_evaluation single_l0 (PNode.root (Cube.new 2) none)).1 = 0 ∧
    (get_evaluation single_l0 (PNode.root (Cube.new 2) none)).2.evalCache = none := by
  constructor
  · show hceil (single_l0 (Cube.new 2)) = 0
    rw [hceil_single_l0]
    decide
  · rfl

/-- C4 (amended): for every node with a parent, the freshly computed evaluation
is `max(path_cost + ceil h, parent f)` and *is* cached; consequently `f` is
monotone non-decreasing along every parent chain whose caches were produced by
the search.  Only the root is exempt: its evaluation is returned uncached and
recomputed per call (with the same value, the heuristic being pure). -/
theorem spec_C4_amended :
    (∀ (n : Nat) (hf : Cube n → ℚ) (s : Cube n) (a : Turn) (p : PNode n) (g : Nat),
      (get_evaluation hf (.child s a p g none)).1 =
          max (g + hceil (hf s)) (fval hf p) ∧
        (get_evaluation hf (.child s a p g none)).2 =
          .child s a (get_evaluation hf p).2 g
            (some (max (g + hceil (hf s)) (fval hf p)))) ∧
    (∀ (n : Nat) (hf : Cube n → ℚ) (nd : PNode n), Consistent hf nd →
      ∀ anc ∈ nd.ancestors, fval hf anc ≤ fval hf nd) := by
  constructor
  · intro n hf s a p g
    constructor
    · simp [get_evaluation, fval]
    · simp [get_evaluation, fval]
  · intro n hf nd hc
    exact fval_mono_ancestors hc

/-- C4 witness: the evaluation equation and chain monotonicity at a concrete
two-node chain (root plus one child), consistency discharged by constructors. -/
theorem spec_C4_witness :
    (get_evaluation single_l0
        (.child (Cube.new 2) ⟨.Up, .Clockwise⟩ (.root (Cube.new 2) none) 1 none)).1 =
      max (1 + hceil (single_l0 (Cube.new 2))) (fval single_l0 (.root (Cube.new 2) none)) ∧
    fval single_l0 (PNode.root (Cube.new 2) none) ≤
      fval single_l0 (.child (Cube.new 2) ⟨.Up, .Clockwise⟩ (.root (Cube.new 2) none) 1 none) :=
  ⟨(spec_C4_amended.1 2 single_l0 (Cube.new 2) ⟨.Up, .Clockwise⟩ (.root (Cube.new 2) none) 1).1,
   spec_C4_amended.2 2 single_l0
     (.child (Cube.new 2) ⟨.Up, .Clockwise⟩ (.root (Cube.new 2) none) 1 none)
     (.childNone _ _ _ (.root _)) _ (by simp [PNode.ancestors])⟩

/-- C7: whenever an iteration's pass exhausts the stack and the next threshold
`min_f` exceeds the give-up bound, `idastar` terminates normally with
`solution = None`, `solution_len = None`, and the node-visited diagnostic
populated with the count accumulated so far.  (`wall_time` is real time,
outside the embedding; the source populates it unconditionally from
`Instant::elapsed`.) -/
theorem spec_C7_give_up_returns_failure :
    ∀ (n : Nat) (hf : Cube n → ℚ) (root : PNode n) (ofuel dfsFuel limit visited minF v : Nat),
      dfsPass hf limit dfsFuel [root] visited usizeMax = some (.exhausted minF v) →
      minF > giveUpLimit →
      idastarGo hf root dfsFuel (ofuel + 1) limit visited =
        some ⟨none, none, v⟩ := by
  intro n hf root ofuel dfsFuel limit visited minF v hpass hgt
  simp only [idastarGo, hpass, if_pos hgt]

/-- C7 witness: a concrete give-up run — a constant heuristic of 1000 on an
unsolved 2×2 cube makes every child exceed the threshold, so `min_f = 1001 > 28`
and the search returns the failure record with 7 nodes visited. -/
theorem spec_C7_witness :
    idastarGo (fun _ : Cube 2 => (1000 : ℚ))
        (PNode.root (((Cube.new 2).turn_layer ⟨.Right, .Clockwise⟩ 1).getD (Cube.new 2)) none)
        50 3 1000 0 = some ⟨none, none, 7⟩ :=
  spec_C7_give_up_returns_failure 2 (fun _ => (1000 : ℚ))
    (PNode.root (((Cube.new 2).turn_layer ⟨.Right, .Clockwise⟩ 1).getD (Cube.new 2)) none)
    2 50 1000 0 1001 7 (by decide) (by decide)

/-! ## Claim theorems: C3 -/

/-- The single turn `idastar` actually returns after a one-turn scramble `t`:
the reversed-direction turn on the positive face of `t`'s axis.  For scrambles
on Right/Up/Front this is exactly the reverse of `t`; for Down/Left/Back it is
the opposite face's turn (the search only generates Right/Up/Front moves and
its goal test is orientation-independent). -/
def expectedSolve (t : Turn) : Turn :=
  ⟨match t.faceDir with
    | .Up => .Up
    | .Down => .Up
    | .Right => .Right
    | .Left => .Right
    | .Front => .Front
    | .Back => .Front,
   t.turnDir.get_reversed⟩

/-- C3 counterexample: scrambling a solved 2×2 with a single Down-clockwise
turn and running `idastar` (single-goal heuristic) returns the length-1
solution `[Up counter-clockwise]`, which is *not* the reverse of the scramble
turn (`Down counter-clockwise`). -/
theorem spec_C3_counterexample :
    ((((Cube.new 2).turn_layer ⟨.Down, .Clockwise⟩ 1).bind fun c =>
        idastar single_l0 c 3 50).map fun r => (r.solution, r.solutionLen)) =
      some (some [⟨.Up, .CounterClockwise⟩], some 1) ∧
    (⟨.Up, .CounterClockwise⟩ : Turn) ≠ revTurn ⟨.Down, .Clockwise⟩ := by
  constructor
  · have hs : (fun c : Cube 2 => idastar single_l0 c 3 50) =
        fun c => idastar l0N c 3 50 :=
      funext fun c => idastar_congr hceil_single_l0 c 3 50
    rw [hs]
    decide
  · decide

/-- C3 (amended): after any single quarter-turn scramble `t` at layer 1 of a
solved 2×2 cube, `idastar` with either supplied heuristic returns a solution of
length exactly 1; its single turn is the reverse of `t` precisely when `t` is
on a positive face (Right/Up/Front), and otherwise is the reversed-direction
turn of the opposite positive face, which undoes `t` up to a whole-cube
rotation. -/
theorem spec_C3_amended : ∀ t : Turn,
    (((((Cube.new 2).turn_layer t 1).bind fun c =>
        idastar single_l0 c 3 50).map fun r => (r.solution, r.solutionLen)) =
      some (some [expectedSolve t], some 1)) ∧
    (((((Cube.new 2).turn_layer t 1).bind fun c =>
        idastar all_l0 c 3 50).map fun r => (r.solution, r.solutionLen)) =
      some (some [expectedSolve t], some 1)) ∧
    (expectedSolve t = revTurn t ↔ t.faceDir.is_positive = true) := by
  have hs : (fun c : Cube 2 => idastar single_l0 c 3 50) =
      fun c => idastar l0N c 3 50 :=
    funext fun c => idastar_congr hceil_single_l0 c 3 50
  have ha : (fun c : Cube 2 => idastar all_l0 c 3 50) =
      fun c => idastar l0N c 3 50 := by
    funext c
    rw [show all_l0 = single_l0 from funext all_l0_eq_single_l0]
    exact idastar_congr hceil_single_l0 c 3 50
  have key : ∀ t : Turn,
      ((((Cube.new 2).turn_layer t 1).bind fun c =>
          idastar l0N c 3 50).map fun r => (r.solution, r.solutionLen)) =
        some (some [expectedSolve t], some 1) := by decide
  intro t
  refine ⟨?_, ?_, ?_⟩
  · rw [hs]; exact key t
  · rw [ha]; exact key t
  · revert t; decide

/-! ## Slice and rotation algebra (toward C5 and C6)

All turn claims concern valid cube states, whose size is at least 1; sizes are
written `n + 1` below. -/

theorem getSlice_setSlice (f : Face m) (i : Fin m) (col : Bool) (s : Fin m → Color) :
    getSlice (setSlice f i col s) i col = s := by
  cases col <;> (funext k; simp [getSlice, setSlice])

theorem setSlice_setSlice (f : Face m) (i : Fin m) (col : Bool) (s s' : Fin m → Color) :
    setSlice (setSlice f i col s) i col s' = setSlice f i col s' := by
  cases col
  · funext p q; by_cases h : p = i <;> simp [setSlice, h]
  · funext p q; by_cases h : q = i <;> simp [setSlice, h]

theorem setSlice_getSlice (f : Face m) (i : Fin m) (col : Bool) :
    setSlice f i col (getSlice f i col) = f := by
  cases col
  · funext p q; by_cases h : p = i <;> simp [setSlice, getSlice, h]
  · funext p q; by_cases h : q = i <;> simp [setSlice, getSlice, h]

theorem revSlice_revSlice (s : Fin m → Color) : revSlice (revSlice s) = s := by
  funext k; simp [revSlice]

theorem rotate_four (td : TurnDir) (f : Face m) :
    ((((f.rotate td).rotate td).rotate td).rotate td) = f := by
  cases td <;> (funext i j; simp [Face.rotate])

theorem rotate_rev_cancel (td : TurnDir) (f : Face m) :
    ((f.rotate td).rotate td.get_reversed) = f := by
  cases td <;> (funext i j; simp [Face.rotate, TurnDir.get_reversed])

/-- Slice position used by a layer-1 band rotation on a face checked by `fS`. -/
def posOf (fS : FaceDir → Bool) (x : FaceDir) : Fin (n + 1) :=
  ⟨if fS x then 1 - 1 else n + 1 - 1, by split <;> omega⟩

/-- The simultaneous effect of one band step on the face at `dst`: its slice is
replaced by the (possibly reversed) slice of `src`, both taken from the same
pre-turn assignment `L`. -/
def bandWrite (fS fC fR : FaceDir → Bool) (L : FaceDir → Face (n + 1)) (src dst : FaceDir) :
    Face (n + 1) :=
  setSlice (L dst) (posOf fS dst) (fC dst)
    (maybeRev (fR dst) (getSlice (L src) (posOf fS src) (fC src)))

/-- The simultaneous form of a layer-1 band rotation around the 4-cycle
`a → b → d → e → a`: every face receives its predecessor's slice. -/
def applyBand (a b d e : FaceDir) (fS fC fR : FaceDir → Bool)
    (L : FaceDir → Face (n + 1)) : FaceDir → Face (n + 1) :=
  Function.update (Function.update (Function.update (Function.update L
    b (bandWrite fS fC fR L a b))
    d (bandWrite fS fC fR L b d))
    e (bandWrite fS fC fR L d e))
    a (bandWrite fS fC fR L e a)

/-- The whole layer-1 turn seen on the logical (direction-indexed) faces:
rotate the turned face, cycle the band. -/
def logicalTurn (t : Turn) (L : FaceDir → Face (n + 1)) : FaceDir → Face (n + 1) :=
  let ar := t.faceDir.get_rotate_axis_and_dir t.turnDir
  match getDirSurroundingAxis ar.1 ar.2 with
  | [a, b, d, e] =>
    Function.update
      (applyBand a b d e (checkIsFromStart ar.1 t.faceDir.is_positive)
        (checkIsColumn ar.1) (checkIsReversed ar.1 ar.2) L)
      t.faceDir ((L t.faceDir).rotate t.turnDir)
  | _ => L

theorem applyBand_at_a {a b d e : FaceDir} (fS fC fR : FaceDir → Bool)
    (L : FaceDir → Face (n + 1)) :
    applyBand a b d e fS fC fR L a = bandWrite fS fC fR L e a := by
  simp [applyBand]

theorem applyBand_at_e {a b d e : FaceDir} (fS fC fR : FaceDir → Bool)
    (L : FaceDir → Face (n + 1)) (hae : a ≠ e) :
    applyBand a b d e fS fC fR L e = bandWrite fS fC fR L d e := by
  simp [applyBand, Function.update_noteq (Ne.symm hae)]

theorem applyBand_at_d {a b d e : FaceDir} (fS fC fR : FaceDir → Bool)
    (L : FaceDir → Face (n + 1)) (had : a ≠ d) (hde : d ≠ e) :
    applyBand a b d e fS fC fR L d = bandWrite fS fC fR L b d := by
  simp [applyBand, Function.update_noteq (Ne.symm had), Function.update_noteq hde]

theorem applyBand_at_b {a b d e : FaceDir} (fS fC fR : FaceDir → Bool)
    (L : FaceDir → Face (n + 1)) (hab : a ≠ b) (hbd : b ≠ d) (hbe : b ≠ e) :
    applyBand a b d e fS fC fR L b = bandWrite fS fC fR L a b := by
  simp [applyBand, Function.update_noteq (Ne.symm hab), Function.update_noteq hbe,
    Function.update_noteq hbd]

theorem applyBand_at_other {a b d e x : FaceDir} (fS fC fR : FaceDir → Bool)
    (L : FaceDir → Face (n + 1)) (hxa : x ≠ a) (hxb : x ≠ b) (hxd : x ≠ d) (hxe : x ≠ e) :
    applyBand a b d e fS fC fR L x = L x := by
  simp [applyBand, Function.update_noteq hxa, Function.update_noteq hxb,
    Function.update_noteq hxd, Function.update_noteq hxe]

theorem bandWrite_update {f src dst : FaceDir} (fS fC fR : FaceDir → Bool)
    (L : FaceDir → Face (n + 1)) (Z : Face (n + 1)) (hsf : src ≠ f) (hdf : dst ≠ f) :
    bandWrite fS fC fR (Function.update L f Z) src dst = bandWrite fS fC fR L src dst := by
  unfold bandWrite
  rw [Function.update_noteq hsf, Function.update_noteq hdf]

theorem applyBand_update_comm {a b d e f : FaceDir} (fS fC fR : FaceDir → Bool)
    (L : FaceDir → Face (n + 1)) (Z : Face (n + 1))
    (hfa : f ≠ a) (hfb : f ≠ b) (hfd : f ≠ d) (hfe : f ≠ e) :
    applyBand a b d e fS fC fR (Function.update L f Z) =
      Function.update (applyBand a b d e fS fC fR L) f Z := by
  funext x
  by_cases hx : x = f
  · subst hx
    rw [Function.update_same,
      applyBand_at_other fS fC fR _ hfa hfb hfd hfe, Function.update_same]
  · rw [Function.update_noteq hx]
    unfold applyBand
    rw [bandWrite_update fS fC fR L Z (Ne.symm hfa) (Ne.symm hfb),
      bandWrite_update fS fC fR L Z (Ne.symm hfb) (Ne.symm hfd),
      bandWrite_update fS fC fR L Z (Ne.symm hfd) (Ne.symm hfe),
      bandWrite_update fS fC fR L Z (Ne.symm hfe) (Ne.symm hfa)]
    by_cases hxa : x = a
    · subst hxa; rw [Function.update_same, Function.update_same]
    · rw [Function.update_noteq hxa, Function.update_noteq hxa]
      by_cases hxe : x = e
      · subst hxe; rw [Function.update_same, Function.update_same]
      · rw [Function.update_noteq hxe, Function.update_noteq hxe]
        by_cases hxd : x = d
        · subst hxd; rw [Function.update_same, Function.update_same]
        · rw [Function.update_noteq hxd, Function.update_noteq hxd]
          by_cases hxb : x = b
          · subst hxb; rw [Function.update_same, Function.update_same]
          · rw [Function.update_noteq hxb, Function.update_noteq hxb,
              Function.update_noteq hx]

theorem maybeRev_four {r1 r2 r3 r4 : Bool} (h : xor r1 (xor r2 (xor r3 r4)) = false)
    (s : Fin m → Color) :
    maybeRev r1 (maybeRev r2 (maybeRev r3 (maybeRev r4 s))) = s := by
  cases r1 <;> cases r2 <;> cases r3 <;> cases r4 <;>
    simp_all [maybeRev, revSlice_revSlice]

theorem xor4_false_perm {p q r s : Bool} (h : xor p (xor q (xor r s)) = false) :
    xor p (xor s (xor r q)) = false ∧ xor q (xor p (xor s r)) = false ∧
      xor r (xor q (xor p s)) = false ∧ xor s (xor r (xor q p)) = false := by
  cases p <;> cases q <;> cases r <;> cases s <;> simp_all

theorem applyBand_four {a b d e : FaceDir} (fS fC fR : FaceDir → Bool)
    (hab : a ≠ b) (had : a ≠ d) (hae : a ≠ e) (hbd : b ≠ d) (hbe : b ≠ e) (hde : d ≠ e)
    (hpar : xor (fR a) (xor (fR b) (xor (fR d) (fR e))) = false)
    (L : FaceDir → Face (n + 1)) :
    applyBand a b d e fS fC fR (applyBand a b d e fS fC fR
      (applyBand a b d e fS fC fR (applyBand a b d e fS fC fR L))) = L := by
  have hAa : ∀ M : FaceDir → Face (n + 1), applyBand a b d e fS fC fR M a =
      setSlice (M a) (posOf fS a) (fC a)
        (maybeRev (fR a) (getSlice (M e) (posOf fS e) (fC e))) :=
    fun M => applyBand_at_a fS fC fR M
  have hAb : ∀ M : FaceDir → Face (n + 1), applyBand a b d e fS fC fR M b =
      setSlice (M b) (posOf fS b) (fC b)
        (maybeRev (fR b) (getSlice (M a) (posOf fS a) (fC a))) :=
    fun M => applyBand_at_b fS fC fR M hab hbd hbe
  have hAd : ∀ M : FaceDir → Face (n + 1), applyBand a b d e fS fC fR M d =
      setSlice (M d) (posOf fS d) (fC d)
        (maybeRev (fR d) (getSlice (M b) (posOf fS b) (fC b))) :=
    fun M => applyBand_at_d fS fC fR M had hde
  have hAe : ∀ M : FaceDir → Face (n + 1), applyBand a b d e fS fC fR M e =
      setSlice (M e) (posOf fS e) (fC e)
        (maybeRev (fR e) (getSlice (M d) (posOf fS d) (fC d))) :=
    fun M => applyBand_at_e fS fC fR M hae
  funext x
  by_cases hxa : x = a
  · rw [hxa]
    simp only [hAa, hAe, hAd, hAb, getSlice_setSlice, setSlice_setSlice]
    rw [maybeRev_four (xor4_false_perm hpar).1]
    exact setSlice_getSlice _ _ _
  by_cases hxb : x = b
  · rw [hxb]
    simp only [hAa, hAe, hAd, hAb, getSlice_setSlice, setSlice_setSlice]
    rw [maybeRev_four (xor4_false_perm hpar).2.1]
    exact setSlice_getSlice _ _ _
  by_cases hxd : x = d
  · rw [hxd]
    simp only [hAa, hAe, hAd, hAb, getSlice_setSlice, setSlice_setSlice]
    rw [maybeRev_four (xor4_false_perm hpar).2.2.1]
    exact setSlice_getSlice _ _ _
  by_cases hxe : x = e
  · rw [hxe]
    simp only [hAa, hAe, hAd, hAb, getSlice_setSlice, setSlice_setSlice]
    rw [maybeRev_four (xor4_false_perm hpar).2.2.2]
    exact setSlice_getSlice _ _ _
  · have hAx : ∀ M : FaceDir → Face (n + 1), applyBand a b d e fS fC fR M x = M x :=
      fun M => applyBand_at_other fS fC fR M hxa hxb hxd hxe
    simp only [hAx]

theorem applyBand_rev_cancel {a b d e : FaceDir} (fS fC fR fR' : FaceDir → Bool)
    (hab : a ≠ b) (had : a ≠ d) (hae : a ≠ e) (hbd : b ≠ d) (hbe : b ≠ e) (hde : d ≠ e)
    (h1 : fR' a = fR b) (h2 : fR' b = fR d) (h3 : fR' d = fR e) (h4 : fR' e = fR a)
    (L : FaceDir → Face (n + 1)) :
    applyBand e d b a fS fC fR' (applyBand a b d e fS fC fR L) = L := by
  have hAa : ∀ M : FaceDir → Face (n + 1), applyBand a b d e fS fC fR M a =
      setSlice (M a) (posOf fS a) (fC a)
        (maybeRev (fR a) (getSlice (M e) (posOf fS e) (fC e))) :=
    fun M => applyBand_at_a fS fC fR M
  have hAb : ∀ M : FaceDir → Face (n + 1), applyBand a b d e fS fC fR M b =
      setSlice (M b) (posOf fS b) (fC b)
        (maybeRev (fR b) (getSlice (M a) (posOf fS a) (fC a))) :=
    fun M => applyBand_at_b fS fC fR M hab hbd hbe
  have hAd : ∀ M : FaceDir → Face (n + 1), applyBand a b d e fS fC fR M d =
      setSlice (M d) (posOf fS d) (fC d)
        (maybeRev (fR d) (getSlice (M b) (posOf fS b) (fC b))) :=
    fun M => applyBand_at_d fS fC fR M had hde
  have hAe : ∀ M : FaceDir → Face (n + 1), applyBand a b d e fS fC fR M e =
      setSlice (M e) (posOf fS e) (fC e)
        (maybeRev (fR e) (getSlice (M d) (posOf fS d) (fC d))) :=
    fun M => applyBand_at_e fS fC fR M hae
  have hBe : ∀ M : FaceDir → Face (n + 1), applyBand e d b a fS fC fR' M e =
      setSlice (M e) (posOf fS e) (fC e)
        (maybeRev (fR' e) (getSlice (M a) (posOf fS a) (fC a))) :=
    fun M => applyBand_at_a fS fC fR' M
  have hBd : ∀ M : FaceDir → Face (n + 1), applyBand e d b a fS fC fR' M d =
      setSlice (M d) (posOf fS d) (fC d)
        (maybeRev (fR' d) (getSlice (M e) (posOf fS e) (fC e))) :=
    fun M => applyBand_at_b fS fC fR' M (Ne.symm hde) (Ne.symm hbd) (Ne.symm had)
  have hBb : ∀ M : FaceDir → Face (n + 1), applyBand e d b a fS fC fR' M b =
      setSlice (M b) (posOf fS b) (fC b)
        (maybeRev (fR' b) (getSlice (M d) (posOf fS d) (fC d))) :=
    fun M => applyBand_at_d fS fC fR' M (Ne.symm hbe) (Ne.symm hab)
  have hBa : ∀ M : FaceDir → Face (n + 1), applyBand e d b a fS fC fR' M a =
      setSlice (M a) (posOf fS a) (fC a)
        (maybeRev (fR' a) (getSlice (M b) (posOf fS b) (fC b))) :=
    fun M => applyBand_at_e fS fC fR' M (Ne.symm hae)
  funext x
  by_cases hxa : x = a
  · subst hxa
    rw [hBa, hAb, hAa, getSlice_setSlice, setSlice_setSlice, h1]
    cases fR b <;> simp [maybeRev, revSlice_revSlice, setSlice_getSlice]
  by_cases hxb : x = b
  · subst hxb
    rw [hBb, hAd, hAb, getSlice_setSlice, setSlice_setSlice, h2]
    cases fR d <;> simp [maybeRev, revSlice_revSlice, setSlice_getSlice]
  by_cases hxd : x = d
  · subst hxd
    rw [hBd, hAe, hAd, getSlice_setSlice, setSlice_setSlice, h3]
    cases fR e <;> simp [maybeRev, revSlice_revSlice, setSlice_getSlice]
  by_cases hxe : x = e
  · subst hxe
    rw [hBe, hAa, hAe, getSlice_setSlice, setSlice_setSlice, h4]
    cases fR a <;> simp [maybeRev, revSlice_revSlice, setSlice_getSlice]
  · have hAx : ∀ M : FaceDir → Face (n + 1), applyBand a b d e fS fC fR M x = M x :=
      fun M => applyBand_at_other fS fC fR M hxa hxb hxd hxe
    have hBx : ∀ M : FaceDir → Face (n + 1), applyBand e d b a fS fC fR' M x = M x :=
      fun M => applyBand_at_other fS fC fR' M hxe hxd hxb hxa
    rw [hBx, hAx]

/-- A layer-1 turn in normal form: band cycle, then overwrite the turned face
with its rotation (the two commute since the turned face is off the band). -/
def faceTurn (a b d e f : FaceDir) (fS fC fR : FaceDir → Bool) (td : TurnDir)
    (L : FaceDir → Face (n + 1)) : FaceDir → Face (n + 1) :=
  Function.update (applyBand a b d e fS fC fR L) f ((L f).rotate td)

theorem faceTurn_four (a b d e f : FaceDir) (fS fC fR : FaceDir → Bool) (td : TurnDir)
    (h : a ≠ b ∧ a ≠ d ∧ a ≠ e ∧ b ≠ d ∧ b ≠ e ∧ d ≠ e ∧ f ≠ a ∧ f ≠ b ∧ f ≠ d ∧ f ≠ e)
    (hpar : xor (fR a) (xor (fR b) (xor (fR d) (fR e))) = false)
    (L : FaceDir → Face (n + 1)) :
    faceTurn a b d e f fS fC fR td (faceTurn a b d e f fS fC fR td
      (faceTurn a b d e f fS fC fR td (faceTurn a b d e f fS fC fR td L))) = L := by
  obtain ⟨hab, had, hae, hbd, hbe, hde, hfa, hfb, hfd, hfe⟩ := h
  have e2 : ∀ M : FaceDir → Face (n + 1), ∀ G : Face (n + 1),
      faceTurn a b d e f fS fC fR td
          (Function.update (applyBand a b d e fS fC fR M) f G) =
        Function.update
          (applyBand a b d e fS fC fR (applyBand a b d e fS fC fR M)) f (G.rotate td) := by
    intro M G
    unfold faceTurn
    rw [applyBand_update_comm fS fC fR _ G hfa hfb hfd hfe, Function.update_idem,
      Function.update_same]
  have h1 : faceTurn a b d e f fS fC fR td L =
      Function.update (applyBand a b d e fS fC fR L) f ((L f).rotate td) := rfl
  rw [h1, e2, e2, e2, applyBand_four fS fC fR hab had hae hbd hbe hde hpar,
    rotate_four, Function.update_eq_self]

theorem faceTurn_rev_cancel (a b d e f : FaceDir) (fS fC fR fR' : FaceDir → Bool)
    (td : TurnDir)
    (h : a ≠ b ∧ a ≠ d ∧ a ≠ e ∧ b ≠ d ∧ b ≠ e ∧ d ≠ e ∧ f ≠ a ∧ f ≠ b ∧ f ≠ d ∧ f ≠ e)
    (hflags : fR' a = fR b ∧ fR' b = fR d ∧ fR' d = fR e ∧ fR' e = fR a)
    (L : FaceDir → Face (n + 1)) :
    faceTurn e d b a f fS fC fR' td.get_reversed (faceTurn a b d e f fS fC fR td L) = L := by
  obtain ⟨hab, had, hae, hbd, hbe, hde, hfa, hfb, hfd, hfe⟩ := h
  obtain ⟨hf1, hf2, hf3, hf4⟩ := hflags
  show Function.update
      (applyBand e d b a fS fC fR'
        (Function.update (applyBand a b d e fS fC fR L) f ((L f).rotate td))) f
      ((Function.update (applyBand a b d e fS fC fR L) f ((L f).rotate td) f).rotate
        td.get_reversed) = L
  rw [Function.update_same,
    applyBand_update_comm fS fC fR' _ _ hfe hfd hfb hfa, Function.update_idem,
    applyBand_rev_cancel fS fC fR fR' hab had hae hbd hbe hde hf1 hf2 hf3 hf4,
    rotate_rev_cancel, Function.update_eq_self]

theorem logicalTurn_four (t : Turn) (L : FaceDir → Face (n + 1)) :
    logicalTurn t (logicalTurn t (logicalTurn t (logicalTurn t L))) = L := by
  obtain ⟨fd, td⟩ := t
  cases fd <;> cases td <;>
    exact faceTurn_four _ _ _ _ _ _ _ _ _ (by decide) (by decide) L

theorem logicalTurn_rev (t : Turn) (L : FaceDir → Face (n + 1)) :
    logicalTurn (revTurn t) (logicalTurn t L) = L := by
  obtain ⟨fd, td⟩ := t
  cases fd <;> cases td <;>
    exact faceTurn_rev_cancel _ _ _ _ _ _ _ _ _ _ (by decide) (by decide) L

/-! ## Bridging the operational `turn_layer` to its simultaneous form -/

theorem Cube.faces_mk (F : Fin 6 → Face m) (D : Fin 6 → FaceDir) :
    (Cube.mk F D).faces = F := rfl

theorem Cube.dirOrder_mk (F : Fin 6 → Face m) (D : Fin 6 → FaceDir) :
    (Cube.mk F D).dirOrder = D := rfl

theorem get_dir_index_mk (F : Fin 6 → Face m) (c : Cube m) (d : FaceDir) :
    (Cube.mk F c.dirOrder).get_dir_index d = c.get_dir_index d := rfl

theorem bandFold_cons1_none {n : Nat} (fS fC fR : FaceDir → Bool) (d : FaceDir)
    (ds : List FaceDir) (c : Cube (n + 1)) (idx : Fin 6)
    (hidx : c.get_dir_index d = some idx) :
    bandFold fS fC fR 1 (d :: ds) c none =
      bandFold fS fC fR 1 ds c
        (some (getSlice (c.faces idx) (posOf fS d) (fC d))) := by
  simp only [bandFold, hidx]
  rw [dif_pos (by split <;> omega)]
  rfl

theorem bandFold_cons1_some {n : Nat} (fS fC fR : FaceDir → Bool) (d : FaceDir)
    (ds : List FaceDir) (c : Cube (n + 1)) (ps : Fin (n + 1) → Color) (idx : Fin 6)
    (hidx : c.get_dir_index d = some idx) :
    bandFold fS fC fR 1 (d :: ds) c (some ps) =
      bandFold fS fC fR 1 ds
        (Cube.mk
          (Function.update c.faces idx
            (setSlice (c.faces idx) (posOf fS d) (fC d) (maybeRev (fR d) ps)))
          c.dirOrder)
        (some (getSlice (c.faces idx) (posOf fS d) (fC d))) := by
  simp only [bandFold, hidx]
  rw [dif_pos (by split <;> omega)]
  rfl

theorem comp_update {c : Cube m} (hinj : Function.Injective c.dirOrder) {x : FaceDir}
    {ix : Fin 6} (hix : c.dirOrder ix = x) (G : FaceDir → Face m) (V : Face m) :
    (fun i => Function.update G x V (c.dirOrder i)) =
      Function.update (fun i => G (c.dirOrder i)) ix V := by
  funext i
  by_cases h : i = ix
  · subst h; rw [hix, Function.update_same, Function.update_same]
  · rw [Function.update_noteq (fun hc => h (hinj (hc.trans hix.symm))),
      Function.update_noteq h]

theorem faceAt_comp {c : Cube m} (hinj : Function.Injective c.dirOrder) :
    (fun i => c.faceAt (c.dirOrder i)) = c.faces := by
  funext i
  exact faceAt_dirOrder hinj i

/-- One layer-1 `turn_layer` run — face rotation followed by the five-step band
fold of the source — equals the simultaneous `faceTurn` on the logical faces,
for any permutation `dir_order` and any band cycle of four distinct directions
avoiding the turned face. -/
theorem bridge_core {n : Nat} (c : Cube (n + 1)) (hb : Function.Bijective c.dirOrder)
    (f a b d e : FaceDir) (fS fC fR : FaceDir → Bool) (td : TurnDir)
    (hab : a ≠ b) (had : a ≠ d) (hae : a ≠ e) (hbd : b ≠ d) (hbe : b ≠ e) (hde : d ≠ e)
    (hfa : f ≠ a) (hfb : f ≠ b) (hfd : f ≠ d) (hfe : f ≠ e) :
    (match c.get_dir_index f with
      | none => none
      | some i =>
        some (Cube.mk (Function.update c.faces i ((c.faces i).rotate td)) c.dirOrder)).bind
      (fun c1 => bandFold fS fC fR 1 [a, b, d, e, a] c1 none) =
      some (Cube.mk (fun i => faceTurn a b d e f fS fC fR td c.faceAt (c.dirOrder i))
        c.dirOrder) := by
  obtain ⟨jf, hjf⟩ := hb.surjective f
  obtain ⟨ja, hja⟩ := hb.surjective a
  obtain ⟨jb, hjb⟩ := hb.surjective b
  obtain ⟨jd, hjd⟩ := hb.surjective d
  obtain ⟨je, hje⟩ := hb.surjective e
  have hif : c.get_dir_index f = some jf := get_dir_index_eq hb.injective hjf
  have hia : c.get_dir_index a = some ja := get_dir_index_eq hb.injective hja
  have hib : c.get_dir_index b = some jb := get_dir_index_eq hb.injective hjb
  have hid : c.get_dir_index d = some jd := get_dir_index_eq hb.injective hjd
  have hie : c.get_dir_index e = some je := get_dir_index_eq hb.injective hje
  have nafb : ja ≠ jf := fun h => hfa (by rw [← hjf, ← h, hja])
  have nbfb : jb ≠ jf := fun h => hfb (by rw [← hjf, ← h, hjb])
  have ndfb : jd ≠ jf := fun h => hfd (by rw [← hjf, ← h, hjd])
  have nefb : je ≠ jf := fun h => hfe (by rw [← hjf, ← h, hje])
  have ndb : jd ≠ jb := fun h => hbd (by rw [← hjb, ← h, hjd])
  have neb : je ≠ jb := fun h => hbe (by rw [← hjb, ← h, hje])
  have ned : je ≠ jd := fun h => hde (by rw [← hjd, ← h, hje])
  have nab : ja ≠ jb := fun h => hab (by rw [← hjb, ← h, hja])
  have nad : ja ≠ jd := fun h => had (by rw [← hjd, ← h, hja])
  have nae : ja ≠ je := fun h => hae (by rw [← hje, ← h, hja])
  rw [hif]
  show bandFold fS fC fR 1 [a, b, d, e, a]
      (Cube.mk (Function.update c.faces jf ((c.faces jf).rotate td)) c.dirOrder) none = _
  rw [bandFold_cons1_none fS fC fR a [b, d, e, a] _ ja
      ((get_dir_index_mk _ c a).trans hia)]
  simp only [Cube.faces_mk, Cube.dirOrder_mk]
  rw [Function.update_noteq nafb]
  rw [bandFold_cons1_some fS fC fR b [d, e, a] _ _ jb
      ((get_dir_index_mk _ c b).trans hib)]
  simp only [Cube.faces_mk, Cube.dirOrder_mk]
  rw [Function.update_noteq nbfb]
  rw [bandFold_cons1_some fS fC fR d [e, a] _ _ jd
      ((get_dir_index_mk _ c d).trans hid)]
  simp only [Cube.faces_mk, Cube.dirOrder_mk]
  rw [Function.update_noteq ndb, Function.update_noteq ndfb]
  rw [bandFold_cons1_some fS fC fR e [a] _ _ je
      ((get_dir_index_mk _ c e).trans hie)]
  simp only [Cube.faces_mk, Cube.dirOrder_mk]
  rw [Function.update_noteq ned, Function.update_noteq neb, Function.update_noteq nefb]
  rw [bandFold_cons1_some fS fC fR a [] _ _ ja
      ((get_dir_index_mk _ c a).trans hia)]
  simp only [Cube.faces_mk, Cube.dirOrder_mk, bandFold]
  rw [Function.update_noteq nae, Function.update_noteq nad, Function.update_noteq nab,
    Function.update_noteq nafb]
  have hFa : c.faceAt a = c.faces ja := faceAt_of_index hia
  have hFb : c.faceAt b = c.faces jb := faceAt_of_index hib
  have hFd : c.faceAt d = c.faces jd := faceAt_of_index hid
  have hFe : c.faceAt e = c.faces je := faceAt_of_index hie
  have hFf : c.faceAt f = c.faces jf := faceAt_of_index hif
  have hR : (fun i => faceTurn a b d e f fS fC fR td c.faceAt (c.dirOrder i)) =
      Function.update (Function.update (Function.update (Function.update (Function.update
        c.faces
        jb (bandWrite fS fC fR c.faceAt a b))
        jd (bandWrite fS fC fR c.faceAt b d))
        je (bandWrite fS fC fR c.faceAt d e))
        ja (bandWrite fS fC fR c.faceAt e a))
        jf ((c.faceAt f).rotate td) := by
    show (fun i =>
        Function.update
          (Function.update (Function.update (Function.update (Function.update c.faceAt
            b (bandWrite fS fC fR c.faceAt a b))
            d (bandWrite fS fC fR c.faceAt b d))
            e (bandWrite fS fC fR c.faceAt d e))
            a (bandWrite fS fC fR c.faceAt e a))
          f ((c.faceAt f).rotate td) (c.dirOrder i)) = _
    rw [comp_update hb.injective hjf, comp_update hb.injective hja,
      comp_update hb.injective hje, comp_update hb.injective hjd,
      comp_update hb.injective hjb, faceAt_comp hb.injective]
  rw [hR]
  simp only [bandWrite, hFa, hFb, hFd, hFe, hFf]
  rw [Function.update_comm (Ne.symm nbfb), Function.update_comm (Ne.symm ndfb),
    Function.update_comm (Ne.symm nefb), Function.update_comm (Ne.symm nafb)]

theorem faceAt_mk_comp {c : Cube m} (hb : Function.Bijective c.dirOrder)
    (G : FaceDir → Face m) :
    (Cube.mk (fun i => G (c.dirOrder i)) c.dirOrder).faceAt = G := by
  funext d
  obtain ⟨j, hj⟩ := hb.surjective d
  have hidx : (Cube.mk (fun i => G (c.dirOrder i)) c.dirOrder).get_dir_index d = some j :=
    (get_dir_index_mk _ c d).trans (get_dir_index_eq hb.injective hj)
  rw [faceAt_of_index hidx]
  show G (c.dirOrder j) = G d
  rw [hj]

/-- A layer-1 `turn_layer` acts on the logical faces as `logicalTurn`. -/
theorem turnLayer_one {n : Nat} (t : Turn) (c : Cube (n + 1))
    (hb : Function.Bijective c.dirOrder) :
    c.turn_layer t 1 =
      some (Cube.mk (fun i => logicalTurn t c.faceAt (c.dirOrder i)) c.dirOrder) := by
  obtain ⟨fd, td⟩ := t
  cases fd <;> cases td <;>
    exact bridge_core c hb _ _ _ _ _ _ _ _ _ (by decide) (by decide) (by decide)
      (by decide) (by decide) (by decide) (by decide) (by decide) (by decide) (by decide)

theorem turnLayer_step {n : Nat} (t' : Turn) (c : Cube (n + 1))
    (hb : Function.Bijective c.dirOrder) (G : FaceDir → Face (n + 1)) :
    (Cube.mk (fun i => G (c.dirOrder i)) c.dirOrder).turn_layer t' 1 =
      some (Cube.mk (fun i => logicalTurn t' G (c.dirOrder i)) c.dirOrder) := by
  have hbG : Function.Bijective (Cube.mk (fun i => G (c.dirOrder i)) c.dirOrder).dirOrder := hb
  have h := turnLayer_one t' (Cube.mk (fun i => G (c.dirOrder i)) c.dirOrder) hbG
  rw [faceAt_mk_comp hb G] at h
  exact h

theorem eq_some_of_map_decide {α : Type} [DecidableEq α] {o : Option α} {x : α}
    (h : o.map (fun y => decide (y = x)) = some true) : o = some x := by
  cases o with
  | none => exact absurd h (by simp)
  | some y =>
    rw [Option.map_some', Option.some.injEq] at h
    exact congrArg some (of_decide_eq_true h)

/-! ## Claim theorems: C5, C6 -/

/-- C5: for every turn (any face direction, either turn direction) and every
cube state — any size ≥ 1, any permutation `dir_order` (the data-model
invariants of valid states) — four applications of `turn_layer` at layer 1
restore exactly the prior state: the returned cube equals the original in
`faces` and `dir_order` (the size is the type index, hence equal). -/
theorem spec_C5_turn_order_four : ∀ (n : Nat) (t : Turn) (c : Cube (n + 1)),
    Function.Bijective c.dirOrder →
    (((c.turn_layer t 1).bind (fun x => x.turn_layer t 1)).bind
        (fun x => x.turn_layer t 1)).bind (fun x => x.turn_layer t 1) = some c := by
  intro n t c hb
  rw [turnLayer_one t c hb, Option.some_bind, turnLayer_step t c hb, Option.some_bind,
    turnLayer_step t c hb, Option.some_bind, turnLayer_step t c hb]
  simp only [logicalTurn_four]
  rw [faceAt_comp hb.injective]

/-- C5 witness: four Right-clockwise quarter turns restore a concrete solved
2×2 cube, the permutation hypothesis discharged by computation. -/
theorem spec_C5_witness :
    ((((Cube.new 2).turn_layer ⟨.Right, .Clockwise⟩ 1).bind
          (fun x => x.turn_layer ⟨.Right, .Clockwise⟩ 1)).bind
        (fun x => x.turn_layer ⟨.Right, .Clockwise⟩ 1)).bind
      (fun x => x.turn_layer ⟨.Right, .Clockwise⟩ 1) = some (Cube.new 2) :=
  spec_C5_turn_order_four 1 ⟨.Right, .Clockwise⟩ (Cube.new 2) (by decide)

/-- C6: for every turn and every valid cube state, a turn followed by its
reverse (same face, opposite direction) restores exactly the original state;
and, concretely, applying "R U R' U'" and then its exact reverse "U R U' R'"
to a solved 2×2 cube yields back the solved initial cube. -/
theorem spec_C6_turn_then_reverse :
    (∀ (n : Nat) (t : Turn) (c : Cube (n + 1)), Function.Bijective c.dirOrder →
      (c.turn_layer t 1).bind (fun x => x.turn_layer (revTurn t) 1) = some c) ∧
    ((Cube.new 2).apply_algorithm
        [⟨.Right, .Clockwise⟩, ⟨.Up, .Clockwise⟩,
         ⟨.Right, .CounterClockwise⟩, ⟨.Up, .CounterClockwise⟩,
         ⟨.Up, .Clockwise⟩, ⟨.Right, .Clockwise⟩,
         ⟨.Up, .CounterClockwise⟩, ⟨.Right, .CounterClockwise⟩] = some (Cube.new 2) ∧
      (Cube.new 2).is_solved = true) := by
  constructor
  · intro n t c hb
    rw [turnLayer_one t c hb, Option.some_bind, turnLayer_step (revTurn t) c hb]
    simp only [logicalTurn_rev]
    rw [faceAt_comp hb.injective]
  · exact ⟨eq_some_of_map_decide (by decide), by decide⟩

/-- C6 witness: a concrete turn-then-reverse pair on a solved 2×2 cube. -/
theorem spec_C6_witness :
    ((Cube.new 2).turn_layer ⟨.Front, .CounterClockwise⟩ 1).bind
      (fun x => x.turn_layer (revTurn ⟨.Front, .CounterClockwise⟩) 1) = some (Cube.new 2) :=
  spec_C6_turn_then_reverse.1 1 ⟨.Front, .CounterClockwise⟩ (Cube.new 2) (by decide)

end RubiksSolver
